import Mathlib

/-!
Verification of the mmgen coin-protocol core (src/mmgen/protocol.py and
src/mmgen/tx.py) against its natural-language specification.

Bytes are modelled as `Nat` values (kept below 256 by explicit `% 256`
where the source relies on machine width), byte strings as `List Nat`,
and text as `List Char`.  Fallible code returns `Option` or a dedicated
result inductive.  The SHA-256 and Keccak-256 primitives, which the
source obtains from library modules (`hashlib`, `sha3`/`mmgen.keccak`),
are implemented here in full so that every codec definition is
executable on concrete inputs.
-/

/-! ## Machine-arithmetic helpers -/

def w32 (n : Nat) : Nat := n % 4294967296

def rotr32 (x n : Nat) : Nat := w32 ((x >>> n) ||| (x <<< (32 - n)))

def w64Mod : Nat := 18446744073709551616

def rotl64 (x n : Nat) : Nat := ((x <<< (n % 64)) ||| (x >>> (64 - n % 64))) % w64Mod

/-- Big-endian value of a byte string, mirroring `int.from_bytes(b,'big')`. -/
def bytesToNat (l : List Nat) : Nat := l.foldl (fun a b => a * 256 + b) 0

/-- Little-endian base-`base` digit expansion, written with a fuel
argument so that it is structurally recursive (and therefore reduces
inside `decide`); `digitsLE` below supplies adequate fuel. -/
def fuelDigitsLE (base : Nat) : Nat → Nat → List Nat
  | _, 0 => []
  | 0, _ + 1 => []
  | fuel + 1, n + 1 => (n + 1) % base :: fuelDigitsLE base fuel ((n + 1) / base)

/-- Little-endian minimal digit expansion of `n` in base `base`. -/
def digitsLE (base n : Nat) : List Nat := fuelDigitsLE base n n

/-- Little-endian minimal byte expansion of a natural number. -/
def natToBytesLE (n : Nat) : List Nat := digitsLE 256 n

/-- Minimal big-endian byte expansion, mirroring
`res.to_bytes(bl//8 + bool(bl%8),'big')` for `bl = res.bit_length()`. -/
def natToBytesBE (n : Nat) : List Nat := (natToBytesLE n).reverse

/-- Big-endian expansion left-padded to a fixed width, mirroring
`n.to_bytes(width,'big')` for values that fit. -/
def natToBytesPadded (n width : Nat) : List Nat :=
  List.replicate (width - (natToBytesBE n).length) 0 ++ natToBytesBE n

/-! ## SHA-256 (the `hashlib.sha256` primitive used by protocol.py) -/

def shaK : List Nat :=
  [0x428a2f98, 0x71374491, 0xb5c0fbcf, 0xe9b5dba5, 0x3956c25b, 0x59f111f1]
  ++ [0x923f82a4, 0xab1c5ed5, 0xd807aa98, 0x12835b01, 0x243185be, 0x550c7dc3]
  ++ [0x72be5d74, 0x80deb1fe, 0x9bdc06a7, 0xc19bf174, 0xe49b69c1, 0xefbe4786]
  ++ [0x0fc19dc6, 0x240ca1cc, 0x2de92c6f, 0x4a7484aa, 0x5cb0a9dc, 0x76f988da]
  ++ [0x983e5152, 0xa831c66d, 0xb00327c8, 0xbf597fc7, 0xc6e00bf3, 0xd5a79147]
  ++ [0x06ca6351, 0x14292967, 0x27b70a85, 0x2e1b2138, 0x4d2c6dfc, 0x53380d13]
  ++ [0x650a7354, 0x766a0abb, 0x81c2c92e, 0x92722c85, 0xa2bfe8a1, 0xa81a664b]
  ++ [0xc24b8b70, 0xc76c51a3, 0xd192e819, 0xd6990624, 0xf40e3585, 0x106aa070]
  ++ [0x19a4c116, 0x1e376c08, 0x2748774c, 0x34b0bcb5, 0x391c0cb3, 0x4ed8aa4a]
  ++ [0x5b9cca4f, 0x682e6ff3, 0x748f82ee, 0x78a5636f, 0x84c87814, 0x8cc70208]
  ++ [0x90befffa, 0xa4506ceb, 0xbef9a3f7, 0xc67178f2]

structure Hash8 where
  a : Nat
  b : Nat
  c : Nat
  d : Nat
  e : Nat
  f : Nat
  g : Nat
  h : Nat
deriving Repr, DecidableEq

def shaH0 : Hash8 :=
  ⟨0x6a09e667, 0xbb67ae85, 0x3c6ef372, 0xa54ff53a, 0x510e527f, 0x9b05688c, 0x1f83d9ab, 0x5be0cd19⟩

def bytesToWordsBE : List Nat → List Nat
  | a :: b :: c :: d :: rest => (a * 16777216 + b * 65536 + c * 256 + d) :: bytesToWordsBE rest
  | _ => []

def shaSmall0 (x : Nat) : Nat := (rotr32 x 7) ^^^ (rotr32 x 18) ^^^ (x >>> 3)

def shaSmall1 (x : Nat) : Nat := (rotr32 x 17) ^^^ (rotr32 x 19) ^^^ (x >>> 10)

def shaExtendAux : Nat → List Nat → List Nat
  | 0, ws => ws
  | k+1, ws =>
    let i := ws.length
    let nw := w32 (ws.getD (i - 16) 0 + shaSmall0 (ws.getD (i - 15) 0)
                   + ws.getD (i - 7) 0 + shaSmall1 (ws.getD (i - 2) 0))
    shaExtendAux k (ws ++ [nw])

def shaRound (st : Hash8) (kw : Nat × Nat) : Hash8 :=
  let s1 := (rotr32 st.e 6) ^^^ (rotr32 st.e 11) ^^^ (rotr32 st.e 25)
  let ch := (st.e &&& st.f) ^^^ ((st.e ^^^ 4294967295) &&& st.g)
  let t1 := w32 (st.h + s1 + ch + kw.1 + kw.2)
  let s0 := (rotr32 st.a 2) ^^^ (rotr32 st.a 13) ^^^ (rotr32 st.a 22)
  let mj := (st.a &&& st.b) ^^^ (st.a &&& st.c) ^^^ (st.b &&& st.c)
  let t2 := w32 (s0 + mj)
  ⟨w32 (t1 + t2), st.a, st.b, st.c, w32 (st.d + t1), st.e, st.f, st.g⟩

def shaBlock (h : Hash8) (block : List Nat) : Hash8 :=
  let ws := shaExtendAux 48 (bytesToWordsBE block)
  let st := (shaK.zip ws).foldl (fun s kw => shaRound s (kw.1, kw.2)) h
  ⟨w32 (h.a + st.a), w32 (h.b + st.b), w32 (h.c + st.c), w32 (h.d + st.d),
   w32 (h.e + st.e), w32 (h.f + st.f), w32 (h.g + st.g), w32 (h.h + st.h)⟩

/-- Fixed-size chunking, fuel-structured for the same reason as
`fuelDigitsLE` (the list length is adequate fuel since every step
consumes at least one element). -/
def chunksAux (sz : Nat) : Nat → List Nat → List (List Nat)
  | _, [] => []
  | 0, _ :: _ => []
  | fuel + 1, x :: rest => ((x :: rest).take sz) :: chunksAux sz fuel ((x :: rest).drop sz)

def chunks64 (l : List Nat) : List (List Nat) := chunksAux 64 l.length l

def wordToBytesBE (w : Nat) : List Nat :=
  [(w >>> 24) % 256, (w >>> 16) % 256, (w >>> 8) % 256, w % 256]

def lenBytes64 (n : Nat) : List Nat :=
  [(n >>> 56) % 256, (n >>> 48) % 256, (n >>> 40) % 256, (n >>> 32) % 256,
   (n >>> 24) % 256, (n >>> 16) % 256, (n >>> 8) % 256, n % 256]

def shaPad (m : List Nat) : List Nat :=
  m ++ 0x80 :: List.replicate ((119 - m.length % 64) % 64) 0 ++ lenBytes64 (8 * m.length)

def sha256 (m : List Nat) : List Nat :=
  let final := (chunks64 (shaPad m)).foldl shaBlock shaH0
  wordToBytesBE final.a ++ wordToBytesBE final.b ++ wordToBytesBE final.c ++ wordToBytesBE final.d
  ++ wordToBytesBE final.e ++ wordToBytesBE final.f ++ wordToBytesBE final.g ++ wordToBytesBE final.h

/-- `hash256bytes` of protocol.py: double SHA-256, bytes in, bytes out. -/
def hash256bytes (bstr : List Nat) : List Nat := sha256 (sha256 bstr)

/-! ## Keccak-256 (the `sha3.keccak_256` / `mmgen.keccak` primitive) -/

def keccakRC : List Nat :=
  [0x0000000000000001, 0x0000000000008082, 0x800000000000808a, 0x8000000080008000]
  ++ [0x000000000000808b, 0x0000000080000001, 0x8000000080008081, 0x8000000000008009]
  ++ [0x000000000000008a, 0x0000000000000088, 0x0000000080008009, 0x000000008000000a]
  ++ [0x000000008000808b, 0x800000000000008b, 0x8000000000008089, 0x8000000000008003]
  ++ [0x8000000000008002, 0x8000000000000080, 0x000000000000800a, 0x800000008000000a]
  ++ [0x8000000080008081, 0x8000000000008080, 0x0000000080000001, 0x8000000080008008]

def keccakRho : List Nat :=
  [0, 1, 62, 28, 27] ++ [36, 44, 6, 55, 20] ++ [3, 10, 43, 25, 39]
  ++ [41, 45, 15, 21, 8] ++ [18, 2, 61, 56, 14]

def kGet (st : List Nat) (x y : Nat) : Nat := st.getD (x % 5 + 5 * (y % 5)) 0

def keccakTheta (st : List Nat) : List Nat :=
  let c := fun x => (kGet st x 0) ^^^ (kGet st x 1) ^^^ (kGet st x 2) ^^^ (kGet st x 3) ^^^ (kGet st x 4)
  let d := fun x => (c ((x + 4) % 5)) ^^^ (rotl64 (c ((x + 1) % 5)) 1)
  (List.range 25).map (fun i => (st.getD i 0) ^^^ d (i % 5))

def keccakRhoPi (st : List Nat) : List Nat :=
  (List.range 25).map (fun i =>
    let u := i % 5
    let v := i / 5
    let x := (u + 3 * v) % 5
    rotl64 (kGet st x u) (keccakRho.getD (x + 5 * u) 0))

def keccakChi (st : List Nat) : List Nat :=
  (List.range 25).map (fun i =>
    let x := i % 5
    let y := i / 5
    (kGet st x y) ^^^ (((kGet st (x + 1) y) ^^^ 18446744073709551615) &&& (kGet st (x + 2) y)))

def keccakRound (st : List Nat) (rc : Nat) : List Nat :=
  match keccakChi (keccakRhoPi (keccakTheta st)) with
  | a0 :: rest => (a0 ^^^ rc) :: rest
  | [] => []

def keccakF (st : List Nat) : List Nat := keccakRC.foldl keccakRound st

def bytesToLaneLE (l : List Nat) : Nat := l.foldr (fun b acc => b + 256 * acc) 0

def laneToBytesLE (w : Nat) : List Nat :=
  [w % 256, (w >>> 8) % 256, (w >>> 16) % 256, (w >>> 24) % 256,
   (w >>> 32) % 256, (w >>> 40) % 256, (w >>> 48) % 256, (w >>> 56) % 256]

def keccakAbsorbBlock (st : List Nat) (block : List Nat) : List Nat :=
  let lanes := (List.range 17).map (fun i => bytesToLaneLE ((block.drop (8 * i)).take 8))
  keccakF ((List.range 25).map (fun i => (st.getD i 0) ^^^ (lanes.getD i 0)))

def keccakPad (m : List Nat) : List Nat :=
  let q := 136 - m.length % 136
  if q = 1 then m ++ [0x81] else m ++ 0x01 :: List.replicate (q - 2) 0 ++ [0x80]

def chunks136 (l : List Nat) : List (List Nat) := chunksAux 136 l.length l

def keccak256 (m : List Nat) : List Nat :=
  let st := (chunks136 (keccakPad m)).foldl keccakAbsorbBlock (List.replicate 25 0)
  laneToBytesLE (st.getD 0 0) ++ laneToBytesLE (st.getD 1 0)
  ++ laneToBytesLE (st.getD 2 0) ++ laneToBytesLE (st.getD 3 0)

/-! ## Base58Check (`_b58chk_encode` / `_b58chk_decode` of protocol.py) -/

/-- The base-58 alphabet `_b58a` of protocol.py. -/
def b58Alpha : List Char :=
  ['1','2','3','4','5','6','7','8','9','A','B','C','D','E','F','G','H','J','K','L','M','N',
   'P','Q','R','S','T','U','V','W','X','Y','Z','a','b','c','d','e','f','g','h','i','j','k',
   'm','n','o','p','q','r','s','t','u','v','w','x','y','z']

/-- Little-endian base-58 digit characters of `n`, mirroring the `do_enc`
generator inside `_b58chk_encode` (digits are produced least significant
first and reversed by the caller). -/
def natToB58LE (n : Nat) : List Char :=
  (digitsLE 58 n).map (fun d => b58Alpha.getD d ' ')

/-- `len(bstr) - len(bstr.lstrip(b'\x00'))`. -/
def countLeadZeroBytes (l : List Nat) : Nat := (l.takeWhile (fun b => b == 0)).length

/-- `_b58chk_encode`: one output `'1'` per leading zero byte, then the
base-58 digits of the big-endian value of payload plus 4-byte
double-SHA-256 checksum. -/
def b58chk_encode (bstr : List Nat) : List Char :=
  List.replicate (countLeadZeroBytes bstr) '1'
  ++ (natToB58LE (bytesToNat (bstr ++ (hash256bytes bstr).take 4))).reverse

/-- `_b58a.index(ch)`, as an `Option` (the source raises `ValueError` on a
character outside the alphabet). -/
def b58Index (c : Char) : Option Nat :=
  if c ∈ b58Alpha then some (b58Alpha.indexOf c) else none

/-- `sum(_b58a.index(ch) * 58**n for n,ch in enumerate(s[::-1]))`. -/
def b58ToNatOpt (s : List Char) : Option Nat :=
  s.foldl (fun acc c => acc.bind (fun a => (b58Index c).map (fun d => a * 58 + d))) (some 0)

/-- `len(s) - len(s.lstrip('1'))`. -/
def countLead1 (s : List Char) : Nat := (s.takeWhile (fun c => c == '1')).length

/-- `_b58chk_decode`: rebuild the byte string from leading `'1'` count and
the minimal big-endian expansion of the base-58 value, then verify the
4-byte checksum.  `none` models the `ValueError` raised by the source on
a bad character or checksum.  Truncated `Nat` subtraction reproduces the
Python slices `out[:-4]` / `out[-4:]` exactly, including for very short
strings. -/
def b58chk_decode (s : List Char) : Option (List Nat) :=
  match b58ToNatOpt s with
  | none => none
  | some res =>
    let out := List.replicate (countLead1 s) 0 ++ natToBytesBE res
    if out.drop (out.length - 4) = (hash256bytes (out.take (out.length - 4))).take 4
    then some (out.take (out.length - 4))
    else none

/-! ## Key pipeline (BitcoinProtocol and friends, protocol.py) -/

/-- Result record `parsed_wif = namedtuple(...,['sec','pubkey_type','compressed'])`. -/
structure ParsedWifT where
  sec : List Nat
  pubkey_type : String
  compressed : Bool
deriving Repr, DecidableEq

/-- Result record `parsed_addr = namedtuple(...,['bytes','fmt'])`. -/
structure ParsedAddrT where
  bytes : List Nat
  fmt : String
deriving Repr, DecidableEq

/-- `BitcoinProtocol.secp256k1_ge`. -/
def secp256k1_ge : Nat := 0xfffffffffffffffffffffffffffffffebaaedce6af48a03bbfd25e8cd0364141

inductive KeyErr where
  /-- `ydie(3,'Private key is zero!')` -/
  | zeroKey
  /-- `ydie(3,'Private key == secp256k1_ge!')` -/
  | eqOrder
  /-- `NameError`: the warning line formats the undefined name `hexpriv`
  (the parameter is `sec`), so when `g.test_suite` is false the branch
  raises before reaching its `return`. -/
  | nameErrHexpriv
deriving Repr, DecidableEq

inductive KeyResult where
  | ok (sec : List Nat)
  | err (e : KeyErr)
deriving Repr, DecidableEq

/-- `BitcoinProtocol.preprocess_key(sec, pubkey_type)`.  `testSuite` is the
global flag `g.test_suite` which guards the warning message. -/
def preprocess_key (testSuite : Bool) (sec : List Nat) : KeyResult :=
  let pk := bytesToNat sec
  if 0 < pk ∧ pk < secp256k1_ge then .ok sec
  else if pk = 0 then .err .zeroKey
  else if pk = secp256k1_ge then .err .eqOrder
  else if testSuite then .ok (natToBytesPadded (pk % secp256k1_ge) 32)
  else .err .nameErrHexpriv

/-- `wif_ver_num` tables, as insertion-ordered association lists of byte
prefixes (the source stores hex strings and converts with
`bytes.fromhex`). -/
def btcWifVerNum : List (String × List Nat) := [("std", [0x80])]

def btcTestnetWifVerNum : List (String × List Nat) := [("std", [0xef])]

def ltcWifVerNum : List (String × List Nat) := [("std", [0xb0])]

def zecWifVerNum : List (String × List Nat) := [("std", [0x80]), ("zcash_z", [0xab, 0x36])]

/-- `BitcoinProtocol.hex2wif(hexpriv, pubkey_type, compressed)`: the secret
is taken here directly as its 32 bytes (`sec = bytes.fromhex(hexpriv)`).
`none` models the two `assert` failures (wrong length, unknown
pubkey_type). -/
def hex2wif (wifVerNum : List (String × List Nat)) (privkeyLen : Nat)
    (sec : List Nat) (pubkeyType : String) (compressed : Bool) : Option (List Char) :=
  if sec.length = privkeyLen then
    match wifVerNum.lookup pubkeyType with
    | some pfx => some (b58chk_encode (pfx ++ sec ++ (if compressed then [1] else [])))
    | none => none
  else none

/-- The version-stripping loop of `parse_wif`: first table entry whose
byte prefix matches wins; `none` models the `for ... else: raise`. -/
def parse_wif_strip (wifVerNum : List (String × List Nat)) (key : List Nat) :
    Option (String × List Nat) :=
  match wifVerNum with
  | [] => none
  | (k, v) :: rest =>
    if key.take v.length = v then some (k, key.drop v.length) else parse_wif_strip rest key

/-- Tail of `parse_wif` after the version prefix has been stripped: the
compressed/uncompressed length check (`key[-1] == 0x01` must hold in
the compressed case) and the final `parsed_wif` construction. -/
def parse_wif_rest (privkeyLen : Nat) (pt : String) (rest : List Nat) : Option ParsedWifT :=
  if rest.length = privkeyLen + 1 then
    if rest.getLast? = some 1 then some ⟨rest.take privkeyLen, pt, true⟩ else none
  else if rest.length = privkeyLen then some ⟨rest.take privkeyLen, pt, false⟩
  else none

/-- `BitcoinProtocol.parse_wif(wif)`.  `none` models every raising path
(bad base-58 checksum, unknown version prefix, bad compressed suffix
byte, bad key length). -/
def parse_wif (wifVerNum : List (String × List Nat)) (privkeyLen : Nat)
    (wif : List Char) : Option ParsedWifT :=
  (b58chk_decode wif).bind (fun key =>
    (parse_wif_strip wifVerNum key).bind (fun pr => parse_wif_rest privkeyLen pr.1 pr.2))

/-! ## Address pipeline -/

/-- `addr_ver_bytes` tables (insertion-ordered, as in the source, where
Litecoin uses an `OrderedDict` precisely to pin this order). -/
def btcAddrVerBytes : List (List Nat × String) := [([0x00], "p2pkh"), ([0x05], "p2sh")]

def ltcAddrVerBytes : List (List Nat × String) :=
  [([0x30], "p2pkh"), ([0x32], "p2sh"), ([0x05], "p2sh")]

def xmrAddrVerBytes : List (List Nat × String) := [([0x12], "monero"), ([0x2a], "monero_sub")]

/-- `BitcoinProtocol.parse_addr_bytes(addr_bytes)`: try each
`addr_ver_bytes` entry in insertion order; an entry matches when its
byte prefix matches and the remaining length equals
`get_addr_len(addr_fmt)`. -/
def parse_addr_bytes (verBytes : List (List Nat × String)) (addrLenFor : String → Nat)
    (addrBytes : List Nat) : Option ParsedAddrT :=
  match verBytes with
  | [] => none
  | (vb, fmt) :: rest =>
    if addrBytes.take vb.length = vb then
      if (addrBytes.drop vb.length).length = addrLenFor fmt
      then some ⟨addrBytes.drop vb.length, fmt⟩
      else parse_addr_bytes rest addrLenFor addrBytes
    else parse_addr_bytes rest addrLenFor addrBytes

/-- The bech32 branch of `BitcoinProtocol.parse_addr`, taken verbatim:
`bech32.decode` (a collaborator module, abstracted as `bechDecode`;
`none` stands for its `(None, None)` failure value, which then fails the
witness-version comparison), the witness-version check, and the
emptiness check on the data part. -/
def bech32Branch (hrp : List Char) (witnessVernum : Nat)
    (bechDecode : List Char → List Char → Option (Nat × List Nat))
    (addr : List Char) : Option ParsedAddrT :=
  match bechDecode hrp addr with
  | none => none
  | some (ver, data) =>
    if ver ≠ witnessVernum then none
    else if data = [] then none
    else some ⟨data, "bech32"⟩

/-- `BitcoinProtocol.parse_addr(addr)`, generic over the protocol record
fields it reads (`mmtypes`, `bech32_hrp`, `witness_vernum`,
`addr_ver_bytes`, `get_addr_len`) and over the two decoding
collaborators: `bechDecode` for the `bech32` module and `b58dec` for
`_b58chk_decode` (instantiated with the real `b58chk_decode` below;
keeping it a parameter lets us state that the bech32 path never consults
it). -/
def parse_addr (mmtypes : List Char) (hrp : List Char) (witnessVernum : Nat)
    (verBytes : List (List Nat × String)) (addrLenFor : String → Nat)
    (bechDecode : List Char → List Char → Option (Nat × List Nat))
    (b58dec : List Char → Option (List Nat))
    (addr : List Char) : Option ParsedAddrT :=
  if 'B' ∈ mmtypes ∧ addr.take hrp.length = hrp then
    match bechDecode hrp addr with
    | none => none
    | some (ver, data) =>
      if ver ≠ witnessVernum then none
      else if data = [] then none
      else some ⟨data, "bech32"⟩
  else
    (b58dec addr).bind (parse_addr_bytes verBytes addrLenFor)

/-- `bytes.fromhex` support: value of one hex digit. -/
def hexDigitVal (c : Char) : Option Nat :=
  if '0' ≤ c ∧ c ≤ '9' then some (c.toNat - 48)
  else if 'a' ≤ c ∧ c ≤ 'f' then some (c.toNat - 87)
  else if 'A' ≤ c ∧ c ≤ 'F' then some (c.toNat - 55)
  else none

/-- `bytes.fromhex` on an even-length hex string (the only way the source
uses it). -/
def hexToBytes : List Char → Option (List Nat)
  | [] => some []
  | c1 :: c2 :: rest =>
    match hexDigitVal c1, hexDigitVal c2, hexToBytes rest with
    | some h, some l, some bs => some ((16 * h + l) :: bs)
    | _, _, _ => none
  | _ => none

/-- `BitcoinProtocol.addr_fmt_to_ver_bytes(req_fmt)`: first
`addr_ver_bytes` entry carrying the requested format tag. -/
def addr_fmt_to_ver_bytes (verBytes : List (List Nat × String)) (reqFmt : String) :
    Option (List Nat) :=
  match verBytes with
  | [] => none
  | (vb, fmt) :: rest =>
    if reqFmt = fmt then some vb else addr_fmt_to_ver_bytes rest reqFmt

/-- `BitcoinProtocol.pubhash2addr(pubkey_hash, p2sh)`: the pubkey hash
arrives as a 40-char hex string; the version prefix (looked up as hex)
is prepended and the whole converted to bytes and base-58-check
encoded.  `none` models the length `assert` and the (unreachable for
Bitcoin-family tables) failed format lookup. -/
def pubhash2addr (verBytes : List (List Nat × String)) (pubkeyHash : List Char)
    (p2sh : Bool) : Option (List Char) :=
  if pubkeyHash.length = 40 then
    match addr_fmt_to_ver_bytes verBytes (if p2sh then "p2sh" else "p2pkh"),
          hexToBytes pubkeyHash with
    | some vb, some hb => some (b58chk_encode (vb ++ hb))
    | _, _ => none
  else none

/-! ## Monero address parsing (MoneroProtocol.parse_addr) -/

/-- Modelled from the spec: `mmgen.baseconv.tobytes(s,'b58',pad=n)` is not
under src/; per spec section 4.1, Monero base-58 is block-wise, a group
of 11 characters decoding to 8 raw bytes and the final partial group to
5 bytes, so this converts base-58 digits to a value and emits it
big-endian left-padded to `pad` bytes (failing if the value does not
fit or a character is not in the alphabet). -/
def b58ToBytesPadded (s : List Char) (pad : Nat) : Option (List Nat) :=
  match b58ToNatOpt s with
  | none => none
  | some n => if n < 256 ^ pad then some (natToBytesPadded n pad) else none

/-- The inner `b58dec` of `MoneroProtocol.parse_addr`: `l//11` full
11-character blocks decode to 8 bytes each, then
`baseconv.tobytes(addr_str[-(l%11):],'b58',pad=5)`.  When `l % 11 == 0`
the Python slice `[-0:]` is the whole string; the model reproduces
that. -/
def monero_b58dec (s : List Char) : Option (List Nat) :=
  let l := s.length
  let lastChars := if l % 11 = 0 then s else s.drop (l - l % 11)
  match (List.range (l / 11)).mapM (fun i => b58ToBytesPadded ((s.drop (11 * i)).take 11) 8),
        b58ToBytesPadded lastChars 5 with
  | some blocks, some b => some (blocks.flatten ++ b)
  | _, _ => none

/-- `MoneroProtocol.parse_addr(addr)`: block-wise base-58 decode, verify
the 4-byte Keccak-256 prefix checksum over everything but the last 4
bytes (`none` models the `assert` failure), then hand the FULL decoded
byte string (checksum included) to `parse_addr_bytes` with
`addr_len = 68`. -/
def xmr_parse_addr (addr : List Char) : Option ParsedAddrT :=
  (monero_b58dec addr).bind (fun ret =>
    if ret.drop (ret.length - 4) = (keccak256 (ret.take (ret.length - 4))).take 4
    then parse_addr_bytes xmrAddrVerBytes (fun _ => 68) ret
    else none)

/-! ## Altcoin catalog expansion (make_init_genonly_altcoins_str) -/

/-- One catalog record from `mmgen.altcoin.CoinInfo`, restricted to the
fields `make_proto` reads. -/
structure CoinInfoEntry where
  name : String
  symbol : String
  p2pkhVer : Nat
  p2shVer : Option Nat
  wifVer : Nat
  hasSegwit : Bool
deriving Repr, DecidableEq

/-- The protocol record synthesized by the generated class text. -/
structure GenProtocol where
  protoName : String
  baseCoin : String
  addrVerBytes : List (List Nat × String)
  wifVerNum : List (String × List Nat)
  mmtypes : List Char
deriving Repr, DecidableEq

/-- `CoinProtocol.coins.keys()` at module load. -/
def coreCoins : List String := ["btc", "bch", "ltc", "eth", "etc", "zec", "xmr"]

/-- `str.lower()` for the ASCII coin symbols the catalog uses. -/
def strToLower (s : String) : String := String.mk (s.toList.map Char.toLower)

/-- Class-name computation inside `make_proto`, including the `X_` prefix
for names starting with a digit. -/
def protoClassName (e : CoinInfoEntry) (testnet : Bool) : String :=
  let p := e.name ++ (if testnet then "Testnet" else "") ++ "Protocol"
  match p.toList with
  | c :: _ => if '0' ≤ c ∧ c ≤ '9' then "X_" ++ p else p
  | [] => p

/-- The per-entry `make_proto` closure of
`make_init_genonly_altcoins_str`, embedded shallowly: the source builds
Python class text and `exec`s it; here the produced class is the record
and the two guard clauses that make the source return the empty string
(an already-defined class name, or a symbol already present in
`CoinProtocol.coins`) yield `none` — the entry is skipped with no
registration and no error. -/
def make_proto (definedProtos : List String) (registeredCoins : List String)
    (e : CoinInfoEntry) (testnet : Bool) : Option GenProtocol :=
  let proto := protoClassName e testnet
  if proto ∈ definedProtos then none
  else if strToLower e.symbol ∈ registeredCoins then none
  else some
    { protoName := proto
      baseCoin := e.symbol
      addrVerBytes :=
        ([e.p2pkhVer], "p2pkh") ::
          (match e.p2shVer with
           | some v => [([v], "p2sh")]
           | none => [])
      wifVerNum := [("std", [e.wifVer])]
      mmtypes := ['L', 'C'] ++ (if e.hasSegwit then ['S'] else []) }

/-- The mainnet pass of `make_init_genonly_altcoins_str`, collecting the
protocols actually emitted (skipped entries contribute nothing to the
generated source text). -/
def make_init_genonly_altcoins (definedProtos registeredCoins : List String)
    (entries : List CoinInfoEntry) : List GenProtocol :=
  entries.filterMap (fun e => make_proto definedProtos registeredCoins e false)

/-! ## Coin-amount validation (tx.py, Python 2) -/

/-- A Python 2.7 `decimal.Decimal` value, restricted to what
`Decimal(str)` can produce: finite numbers as
`(sign, coefficient digits, exponent)` exactly like `as_tuple()`, plus
quiet NaN, signaling NaN and infinities.  (NaN diagnostic digits and the
sign of a NaN play no role in the modelled functions and are dropped.) -/
inductive PyDecimal where
  | num (sign : Bool) (digits : List Nat) (exp : Int)
  | nan
  | snan
  | inf (sign : Bool)
deriving Repr, DecidableEq

def isDigitCh (c : Char) : Bool := '0' ≤ c ∧ c ≤ '9'

def digitVal (c : Char) : Nat := c.toNat - 48

def digitsToNat (s : List Char) : Nat := s.foldl (fun a c => a * 10 + digitVal c) 0

/-- Decimal digit list of `n` (most significant first), empty for 0. -/
def natDigits (n : Nat) : List Nat := (digitsLE 10 n).reverse

/-- Coefficient digits as Python stores them: `str(int(digit_string))`,
i.e. leading zeros removed but at least one digit. -/
def coeffDigits (n : Nat) : List Nat :=
  match natDigits n with
  | [] => [0]
  | ds => ds

/-- Value of a coefficient digit tuple. -/
def coeffVal (ds : List Nat) : Nat := ds.foldl (fun a d => a * 10 + d) 0

/-- Exponent-part parser: `[+-]?digits`, digits nonempty. -/
def parseExpPart (s : List Char) : Option Int :=
  match s with
  | '+' :: r => if r ≠ [] ∧ r.all isDigitCh then some (Int.ofNat (digitsToNat r)) else none
  | '-' :: r => if r ≠ [] ∧ r.all isDigitCh then some (-Int.ofNat (digitsToNat r)) else none
  | r => if r ≠ [] ∧ r.all isDigitCh then some (Int.ofNat (digitsToNat r)) else none

/-- Split a char list at the first occurrence of one of the given
characters. -/
def splitAtFirst (seps : List Char) : List Char → (List Char × Option (List Char))
  | [] => ([], none)
  | c :: rest =>
    if c ∈ seps then ([], some rest)
    else
      let r := splitAtFirst seps rest
      (c :: r.1, r.2)

/-- The numeric alternative of the 2.7 `decimal` parsing regex:
`(?=\d|\.\d)(?P<int>\d*)(\.(?P<frac>\d*))?(E(?P<exp>[-+]?\d+))?`.
Coefficient and exponent are assembled exactly as `Decimal.__new__`
does: `_int = str(int(intpart+fracpart))`, `_exp = exp - len(fracpart)`. -/
def parseNumericMag (sign : Bool) (s : List Char) : Option PyDecimal :=
  let me := splitAtFirst ['e', 'E'] s
  let expVal := match me.2 with
    | none => some (0 : Int)
    | some es => parseExpPart es
  match expVal with
  | none => none
  | some ev =>
    let mf := splitAtFirst ['.'] me.1
    let ip := mf.1
    let fp := (mf.2).getD []
    if ip.all isDigitCh ∧ fp.all isDigitCh
        ∧ (ip ≠ [] ∨ fp ≠ []) ∧ (ip ≠ [] ∨ mf.2 ≠ none) then
      some (.num sign (coeffDigits (digitsToNat (ip ++ fp))) (ev - fp.length))
    else none

/-- One magnitude alternative of the regex: NaN with optional diagnostic
digits, signaling NaN, infinity, or a numeric string. -/
def parseMag (sign : Bool) (s : List Char) : Option PyDecimal :=
  let ls := s.map Char.toLower
  if ls.take 3 = ['n', 'a', 'n'] ∧ (ls.drop 3).all isDigitCh then some .nan
  else if ls.take 4 = ['s', 'n', 'a', 'n'] ∧ (ls.drop 4).all isDigitCh then some .snan
  else if ls = ['i', 'n', 'f'] ∨ ls = ['i', 'n', 'f', 'i', 'n', 'i', 't', 'y'] then
    some (.inf sign)
  else parseNumericMag sign s

/-- `Decimal(value)` for a string argument: strip whitespace, optional
sign, then one of the three magnitude alternatives; `none` models the
`InvalidOperation` raised on a non-matching string. -/
def parseDecimalStr (s : List Char) : Option PyDecimal :=
  let t := (((s.dropWhile Char.isWhitespace).reverse).dropWhile Char.isWhitespace).reverse
  match t with
  | '+' :: r => parseMag false r
  | '-' :: r => parseMag true r
  | r => parseMag false r

/-- Whether `d == d.to_integral()` holds in Python 2.7: finite values are
compared by value, `NaN == NaN` is `False`, infinities compare equal to
themselves.  (Reaching this with a signaling NaN would raise; the
modelled caller filters that case out first.) -/
def decIsIntegral : PyDecimal → Bool
  | .num _ ds e => if 0 ≤ e then true else decide (coeffVal ds % 10 ^ e.natAbs = 0)
  | .nan => false
  | .snan => false
  | .inf _ => true

/-- Integer value of an integral finite decimal. -/
def decIntValue (ds : List Nat) (e : Int) : Nat :=
  if 0 ≤ e then coeffVal ds * 10 ^ e.toNat else coeffVal ds / 10 ^ e.natAbs

/-- Trailing-zero stripping done by `Decimal.normalize` on a finite
non-integral value: drop trailing zero digits of the coefficient,
raising the exponent accordingly. -/
def stripTrailingZeroDigits (ds : List Nat) : List Nat × Nat :=
  let kept := (ds.reverse.dropWhile (fun d => d == 0)).reverse
  (kept, ds.length - kept.length)

/-- `trim_exponent(n)` of tx.py:
`d.quantize(Decimal(1)) if d == d.to_integral() else d.normalize()`.
`none` models an uncaught `InvalidOperation`: quantizing an infinity, or
quantizing an integral value whose result would have more digits than
the context precision of 28; `to_integral` on a signaling NaN also
raises.  `normalize` on a quiet NaN returns NaN. -/
def trim_exponent : PyDecimal → Option PyDecimal
  | .nan => some .nan
  | .snan => none
  | .inf _ => none
  | .num sg ds e =>
    if decIsIntegral (.num sg ds e) then
      let v := decIntValue ds e
      if (coeffDigits v).length ≤ 28 then some (.num sg (coeffDigits v) 0) else none
    else
      let st := stripTrailingZeroDigits ds
      some (.num sg (if st.1 = [] then [0] else st.1) (e + st.2))

/-- Observable outcome of `is_btc_amt`. -/
inductive AmtResult where
  /-- the function returns `False` -/
  | invalid
  /-- the function returns a Decimal amount -/
  | amount (d : PyDecimal)
  /-- an exception escapes the function (only the `Decimal(amt)`
  constructor call is inside the `try`) -/
  | raised
deriving Repr, DecidableEq

/-- The `ret.as_tuple()[-1] < -8` test of `is_btc_amt`.  For NaN and
infinity the tuple exponent is the string `'n'`/`'N'`/`'F'`, and in
Python 2 an `int < str` comparison is `False` (numbers sort before
strings), so only finite values can pass this test. -/
def decExpLtMinus8 : PyDecimal → Bool
  | .num _ _ e => decide (e < -8)
  | _ => false

/-- The `ret == 0` test: finite values compare by value, quiet NaN
compares unequal without raising, a signaling NaN raises
`InvalidOperation` (`none`), infinities are nonzero. -/
def decEqZeroCheck : PyDecimal → Option Bool
  | .num _ ds _ => some (decide (coeffVal ds = 0))
  | .nan => some false
  | .snan => none
  | .inf _ => some false

/-- `is_btc_amt(amt)` of tx.py for a string argument: parse (parse
failure is caught and returns `False`), reject exponent `< -8`, reject
zero, and return `trim_exponent(ret)` otherwise.  There is no test for
negative values or NaN. -/
def is_btc_amt (s : List Char) : AmtResult :=
  match parseDecimalStr s with
  | none => .invalid
  | some d =>
    if decExpLtMinus8 d then .invalid
    else
      match decEqZeroCheck d with
      | none => .raised
      | some true => .invalid
      | some false =>
        match trim_exponent d with
        | none => .raised
        | some t => .amount t

/-- Observable outcome of `check_btc_amt`. -/
inductive CheckAmtResult where
  | exit3
  | amount (d : PyDecimal)
  | raised
deriving Repr, DecidableEq

/-- `check_btc_amt(amt)`: `sys.exit(3)` when `is_btc_amt` returned
`False`, otherwise pass the amount through (every Decimal that
`is_btc_amt` can return is nonzero or NaN, hence truthy). -/
def check_btc_amt (s : List Char) : CheckAmtResult :=
  match is_btc_amt s with
  | .invalid => .exit3
  | .amount d => .amount d
  | .raised => .raised

/-! ## Key pre-verification (preverify_keys, tx.py) -/

/-- Python `set(...)` built from a list, modelled as order-preserving
deduplication (CPython set iteration order is unspecified; the claims
settled against this model do not depend on the order chosen). -/
def dedup (l : List String) : List String :=
  l.foldl (fun acc x => if x ∈ acc then acc else acc ++ [x]) []

/-- The main loop of `preverify_keys`: derive each key's address; a hit
removes the address from the remaining set and, when the set becomes
empty, BREAKS out without examining the remaining keys; a miss appends
the key to `wrong_keys`.  Returns (remaining addresses, wrong keys). -/
def preverifyLoop (derive : String → String) :
    List String → List String → List String → List String × List String
  | [], addrs, wrong => (addrs, wrong)
  | k :: ks, addrs, wrong =>
    if derive k ∈ addrs then
      let addrs2 := addrs.erase (derive k)
      if addrs2 = [] then (addrs2, wrong) else preverifyLoop derive ks addrs2 wrong
    else preverifyLoop derive ks addrs (wrong ++ [k])

/-- Observable outcome of `preverify_keys`. -/
structure PreverifyOut where
  invalidKeys : List String
  wrongKeys : List String
  remaining : List String
  exitCode : Option Nat
deriving Repr, DecidableEq

/-- `preverify_keys(addrs_orig, keys_orig)` of tx.py.  `validKey`
abstracts `b.wiftohex(k, compressed = k[0] != '5') != False` and
`derive` abstracts `b.privnum2addr(...)` (both live in `mmgen.bitcoin`,
outside the protocol core).  Too few keys → `sys.exit(2)`; any invalid
key → `sys.exit(2)`; after the loop, surviving unmatched addresses →
`sys.exit(2)` (wrong keys are only reported).  The `KeyboardInterrupt`
skip path is not modelled. -/
def preverify_keys (validKey : String → Bool) (derive : String → String)
    (addrsOrig keysOrig : List String) : PreverifyOut :=
  let addrs := dedup addrsOrig
  let keys := dedup keysOrig
  if keys.length < addrs.length then ⟨[], [], addrs, some 2⟩
  else
    let invalid := keys.filter (fun k => ¬ validKey k)
    if invalid ≠ [] then ⟨invalid, [], addrs, some 2⟩
    else
      let res := preverifyLoop derive keys addrs []
      ⟨[], res.2, res.1, if res.1 = [] then none else some 2⟩

/-! ## Wallet lock discipline (sign_tx_with_bitcoind_wallet, tx.py) -/

/-- Outcome of one `c.signrawtransaction` RPC call, as observed through
`sign_transaction`: success, `InvalidAddressOrKey` (on which
`sign_transaction` itself calls `sys.exit(3)`), or any other
exception (which propagates out of `sign_transaction`). -/
inductive SignOutcome where
  | ok
  | invalidKey
  | otherErr
deriving Repr, DecidableEq

/-- Externally visible RPC events of a signing attempt. -/
inductive WalletEv where
  /-- a `signrawtransaction` call (via `sign_transaction`) -/
  | signCall
  /-- a `walletpassphrase` call that succeeded -/
  | passOk
  /-- a `walletpassphrase` call rejected as incorrect -/
  | passBad
  /-- a `walletlock` call (whether or not it succeeds) -/
  | lockCall
deriving Repr, DecidableEq

/-- How the whole attempt ends. -/
inductive RunEnd where
  | returned
  | exitCode (n : Nat)
  | exception
  /-- the passphrase prompt loop never succeeds within the supplied
  attempt outcomes (the real loop would keep prompting) -/
  | hang
deriving Repr, DecidableEq

/-- Environment behavior for one run: outcome of the first
`sign_transaction`, outcomes of successive `walletpassphrase` calls,
outcome of the second `sign_transaction`. -/
structure SignBehavior where
  firstSign : SignOutcome
  passAttempts : List Bool
  secondSign : SignOutcome
deriving Repr

/-- The `while True` passphrase loop: only
`WalletPassphraseIncorrect` is caught, success breaks. -/
def unlockLoop : List Bool → List WalletEv × Bool
  | [] => ([], false)
  | true :: _ => ([.passOk], true)
  | false :: rest =>
    let r := unlockLoop rest
    (.passBad :: r.1, r.2)

/-- `sign_tx_with_bitcoind_wallet(c, tx_hex, sig_data, keys, opts)` as a
trace semantics.  The first `sign_transaction` sits in a bare
`except:` (Python 2: this catches even the `SystemExit` that
`sign_transaction` raises on `InvalidAddressOrKey`), so any non-ok
outcome enters the wallet-passphrase path.  The second
`sign_transaction` is NOT wrapped: `InvalidAddressOrKey` ends the
process with exit code 3 and any other error propagates, in both cases
before the `walletlock` call is reached; only normal completion reaches
`c.walletlock()`. -/
def sign_tx_with_bitcoind_wallet (b : SignBehavior) : RunEnd × List WalletEv :=
  match b.firstSign with
  | .ok => (.returned, [.signCall])
  | _ =>
    let u := unlockLoop b.passAttempts
    if u.2 = false then (.hang, .signCall :: u.1)
    else
      match b.secondSign with
      | .ok => (.returned, .signCall :: u.1 ++ [.signCall, .lockCall])
      | .invalidKey => (.exitCode 3, .signCall :: u.1 ++ [.signCall])
      | .otherErr => (.exception, .signCall :: u.1 ++ [.signCall])

/-- Little-endian byte value, the mirror image used to reason about
`bytesToNat`. -/
def leBytesVal (l : List Nat) : Nat := l.foldr (fun b acc => b + 256 * acc) 0

/-- The 32-byte big-endian encoding of `secp256k1_ge + 1`. -/
def secGePlusOne : List Nat := natToBytesPadded (secp256k1_ge + 1) 32

/-- A valid Monero mainnet address for the all-zero 64-byte key data:
version byte `0x12`, 64 zero bytes, Keccak-256 checksum `33bb9441`,
block-wise base-58 encoded. -/
def xmrZeroAddr : List Char :=
  ("41d7FXjswpK11111111111111111111111111111111111111111111111111111111"
    ++ "111111111111111111111112KhNi4").toList

/-- The Litecoin entry of the altcoin catalog (symbol LTC, p2pkh `0x30`,
p2sh `0x32`, WIF `0xb0`, segwit-capable). -/
def ltcCatalogEntry : CoinInfoEntry :=
  { name := "Litecoin", symbol := "LTC", p2pkhVer := 0x30, p2shVer := some 0x32,
    wifVer := 0xb0, hasSegwit := true }

/-! ## Arithmetic facts about the byte and base-58 codecs -/

theorem foldl_bytes_ge (l : List Nat) : ∀ acc : Nat, acc ≤ l.foldl (fun a b => a * 256 + b) acc := by
  induction l with
  | nil => intro acc; simp
  | cons b t ih =>
    intro acc
    simp only [List.foldl_cons]
    calc acc ≤ acc * 256 + b := by nlinarith
    _ ≤ t.foldl (fun a b => a * 256 + b) (acc * 256 + b) := ih _

theorem bytesToNat_cons_pos (a : Nat) (l : List Nat) (ha : a ≠ 0) : 0 < bytesToNat (a :: l) := by
  have h1 : a ≤ bytesToNat (a :: l) := by
    simpa [bytesToNat] using foldl_bytes_ge l a
  omega

theorem leBytesVal_append (r : List Nat) (b : Nat) :
    leBytesVal (r ++ [b]) = leBytesVal r + b * 256 ^ r.length := by
  induction r with
  | nil => simp [leBytesVal]
  | cons x t ih =>
    simp only [leBytesVal, List.foldr_cons, List.cons_append, List.length_cons] at *
    rw [ih]
    ring

theorem leBytesVal_append_pos (r : List Nat) (b : Nat) (hb : b ≠ 0) :
    0 < leBytesVal (r ++ [b]) := by
  rw [leBytesVal_append]
  have : 0 < b * 256 ^ r.length := by positivity
  omega

theorem foldl_bytes_eq (l : List Nat) : ∀ acc : Nat,
    l.foldl (fun a b => a * 256 + b) acc = acc * 256 ^ l.length + leBytesVal l.reverse := by
  induction l with
  | nil => intro acc; simp [leBytesVal]
  | cons b t ih =>
    intro acc
    simp only [List.foldl_cons, List.reverse_cons, List.length_cons]
    rw [ih, leBytesVal_append]
    simp [List.length_reverse]
    ring

theorem bytesToNat_eq_le (l : List Nat) : bytesToNat l = leBytesVal l.reverse := by
  simpa [bytesToNat] using foldl_bytes_eq l 0

theorem fuelDigitsLE_irrel (base : Nat) (hb : 2 ≤ base) :
    ∀ f1 f2 n, n ≤ f1 → n ≤ f2 → fuelDigitsLE base f1 n = fuelDigitsLE base f2 n := by
  intro f1
  induction f1 with
  | zero =>
    intro f2 n h1 h2
    have hn : n = 0 := by omega
    subst hn
    cases f2 <;> simp [fuelDigitsLE]
  | succ f ih =>
    intro f2 n h1 h2
    cases n with
    | zero => cases f2 <;> simp [fuelDigitsLE]
    | succ m =>
      cases f2 with
      | zero => omega
      | succ f2p =>
        simp only [fuelDigitsLE]
        congr 1
        have hdiv : (m + 1) / base < m + 1 := Nat.div_lt_self (Nat.succ_pos m) (by omega)
        exact ih f2p ((m + 1) / base) (by omega) (by omega)

theorem digitsLE_unfold (base n : Nat) (hb : 2 ≤ base) :
    digitsLE base n = if n = 0 then [] else n % base :: digitsLE base (n / base) := by
  cases n with
  | zero => simp [digitsLE, fuelDigitsLE]
  | succ m =>
    simp only [digitsLE, fuelDigitsLE, Nat.succ_ne_zero, if_false]
    congr 1
    have hdiv : (m + 1) / base < m + 1 := Nat.div_lt_self (Nat.succ_pos m) (by omega)
    exact fuelDigitsLE_irrel base hb m ((m + 1) / base) ((m + 1) / base) (by omega) (by omega)

theorem natToBytesLE_unfold (n : Nat) :
    natToBytesLE n = if n = 0 then [] else n % 256 :: natToBytesLE (n / 256) := by
  simpa [natToBytesLE] using digitsLE_unfold 256 n (by norm_num)

theorem natToBytesLE_leBytesVal : ∀ (r : List Nat) (b : Nat),
    (∀ x ∈ r ++ [b], x < 256) → b ≠ 0 →
    natToBytesLE (leBytesVal (r ++ [b])) = r ++ [b] := by
  intro r
  induction r with
  | nil =>
    intro b hlt hb
    have hb256 : b < 256 := hlt b (by simp)
    rw [leBytesVal_append]
    simp only [leBytesVal, List.foldr_nil, List.length_nil, pow_zero, mul_one, Nat.zero_add]
    rw [natToBytesLE_unfold]
    simp [hb, Nat.mod_eq_of_lt hb256, Nat.div_eq_of_lt hb256, natToBytesLE_unfold]
  | cons x t ih =>
    intro b hlt hb
    have hx256 : x < 256 := hlt x (by simp)
    have hv : leBytesVal ((x :: t) ++ [b]) = x + 256 * leBytesVal (t ++ [b]) := by
      simp [leBytesVal]
    have hpos : 0 < leBytesVal (t ++ [b]) := leBytesVal_append_pos t b hb
    rw [hv, natToBytesLE_unfold]
    have hne : x + 256 * leBytesVal (t ++ [b]) ≠ 0 := by omega
    simp only [hne, if_false]
    have hmod : (x + 256 * leBytesVal (t ++ [b])) % 256 = x := by
      rw [Nat.add_mul_mod_self_left, Nat.mod_eq_of_lt hx256]
    have hdiv : (x + 256 * leBytesVal (t ++ [b])) / 256 = leBytesVal (t ++ [b]) := by
      rw [Nat.add_mul_div_left _ _ (by norm_num : 0 < 256), Nat.div_eq_of_lt hx256]
      omega
    rw [hmod, hdiv, ih b (fun y hy => hlt y (by simp at hy ⊢; tauto)) hb]
    simp

theorem natToBytesBE_bytesToNat (a : Nat) (l : List Nat) (ha : a ≠ 0)
    (hlt : ∀ x ∈ a :: l, x < 256) :
    natToBytesBE (bytesToNat (a :: l)) = a :: l := by
  have hrev : (a :: l).reverse = l.reverse ++ [a] := by simp
  rw [natToBytesBE, bytesToNat_eq_le, hrev]
  rw [natToBytesLE_leBytesVal l.reverse a ?hlt ha]
  · rw [← hrev, List.reverse_reverse]
  case hlt =>
    intro x hx
    apply hlt
    rw [← hrev] at hx
    simpa using (List.mem_reverse.mp hx)

theorem b58Index_getD : ∀ d < 58, b58Index (b58Alpha.getD d ' ') = some d := by decide

theorem b58Alpha_getD_ne_one : ∀ d < 58, d ≠ 0 → b58Alpha.getD d ' ' ≠ '1' := by decide

theorem b58Alpha_getD_mem : ∀ d < 58, b58Alpha.getD d ' ' ∈ b58Alpha := by decide

theorem natToB58LE_unfold (n : Nat) :
    natToB58LE n = if n = 0 then [] else b58Alpha.getD (n % 58) ' ' :: natToB58LE (n / 58) := by
  rw [natToB58LE, digitsLE_unfold 58 n (by norm_num)]
  by_cases h : n = 0
  · simp [h]
  · simp [h, natToB58LE]

theorem b58ToNatOpt_fold_rev (n : Nat) : ∀ acc : Nat,
    ((natToB58LE n).reverse).foldl
      (fun acc c => acc.bind (fun a => (b58Index c).map (fun d => a * 58 + d))) (some acc)
    = some (acc * 58 ^ (natToB58LE n).length + n) := by
  induction n using Nat.strong_induction_on with
  | _ n ih =>
    intro acc
    by_cases h0 : n = 0
    · subst h0
      rw [natToB58LE_unfold]
      simp
    · have hrec := ih (n / 58) (Nat.div_lt_self (Nat.pos_of_ne_zero h0) (by norm_num))
      rw [natToB58LE_unfold]
      simp only [h0, if_false, List.reverse_cons, List.foldl_append, List.length_cons]
      rw [hrec acc]
      simp only [List.foldl_cons, List.foldl_nil, Option.bind_eq_bind, Option.some_bind]
      rw [b58Index_getD (n % 58) (Nat.mod_lt n (by norm_num))]
      simp only [Option.map_some']
      congr 1
      have hdm : 58 * (n / 58) + n % 58 = n := Nat.div_add_mod n 58
      rw [pow_succ]
      nlinarith [hdm]

theorem b58ToNatOpt_rev (n : Nat) :
    b58ToNatOpt ((natToB58LE n).reverse) = some n := by
  have := b58ToNatOpt_fold_rev n 0
  simpa [b58ToNatOpt] using this

theorem natToB58LE_rev_head (n : Nat) (h0 : n ≠ 0) :
    ∃ c cs, (natToB58LE n).reverse = c :: cs ∧ c ∈ b58Alpha ∧ c ≠ '1' := by
  induction n using Nat.strong_induction_on with
  | _ n ih =>
    rw [natToB58LE_unfold]
    simp only [h0, if_false, List.reverse_cons]
    by_cases hq : n / 58 = 0
    · have hn58 : n < 58 := by
        have h1 := Nat.div_add_mod n 58
        have h2 := Nat.mod_lt n (show 0 < 58 by norm_num)
        omega
      have hmod : n % 58 = n := Nat.mod_eq_of_lt hn58
      rw [hq, natToB58LE_unfold]
      refine ⟨b58Alpha.getD (n % 58) ' ', [], by simp, ?_, ?_⟩
      · exact b58Alpha_getD_mem (n % 58) (Nat.mod_lt n (by norm_num))
      · exact b58Alpha_getD_ne_one (n % 58) (Nat.mod_lt n (by norm_num)) (by rw [hmod]; exact h0)
    · obtain ⟨c, cs, heq, hmem, hne⟩ :=
        ih (n / 58) (Nat.div_lt_self (Nat.pos_of_ne_zero h0) (by norm_num)) hq
      exact ⟨c, cs ++ [b58Alpha.getD (n % 58) ' '], by rw [heq]; simp, hmem, hne⟩

theorem wordToBytesBE_length (w : Nat) : (wordToBytesBE w).length = 4 := by
  simp [wordToBytesBE]

theorem wordToBytesBE_lt (w : Nat) : ∀ b ∈ wordToBytesBE w, b < 256 := by
  intro b hb
  simp only [wordToBytesBE, List.mem_cons, List.mem_singleton, List.not_mem_nil] at hb
  rcases hb with h | h | h | h | h
  all_goals first
  | (subst h; omega)
  | exact absurd h (by simp)

theorem sha256_length (m : List Nat) : (sha256 m).length = 32 := by
  simp [sha256, wordToBytesBE]

theorem sha256_lt (m : List Nat) : ∀ b ∈ sha256 m, b < 256 := by
  intro b hb
  simp only [sha256, List.mem_append] at hb
  rcases hb with ((((((h | h) | h) | h) | h) | h) | h) | h
  all_goals exact wordToBytesBE_lt _ b h

theorem hash256bytes_length (m : List Nat) : (hash256bytes m).length = 32 :=
  sha256_length _

theorem hash256bytes_lt (m : List Nat) : ∀ b ∈ hash256bytes m, b < 256 :=
  sha256_lt _

/-- Round trip of the protocol.py base-58-check codec for payloads whose
first byte is nonzero (every WIF and every non-zero-version address
payload is of this shape). -/
theorem b58chk_decode_encode (a : Nat) (as : List Nat) (ha : a ≠ 0)
    (hlt : ∀ x ∈ a :: as, x < 256) :
    b58chk_decode (b58chk_encode (a :: as)) = some (a :: as) := by
  set p := a :: as with hp
  set chk := (hash256bytes p).take 4 with hchk
  have hchklen : chk.length = 4 := by
    rw [hchk, List.length_take, hash256bytes_length]
    decide
  have hchklt : ∀ x ∈ chk, x < 256 := by
    intro x hx
    exact hash256bytes_lt p x (List.mem_of_mem_take hx)
  have hfull : p ++ chk = a :: (as ++ chk) := by simp [hp]
  have hfulllt : ∀ x ∈ a :: (as ++ chk), x < 256 := by
    intro x hx
    rcases List.mem_cons.mp hx with h | h
    · exact hlt x (h ▸ List.mem_cons_self a as)
    · rcases List.mem_append.mp h with h2 | h2
      · exact hlt x (List.mem_cons_of_mem a h2)
      · exact hchklt x h2
  have hn0 : bytesToNat (p ++ chk) ≠ 0 := by
    rw [hfull]
    have hpos := bytesToNat_cons_pos a (as ++ chk) ha
    omega
  -- the encoded string
  have hlz : countLeadZeroBytes p = 0 := by
    have hba : (a == 0) = false := by simp [ha]
    simp [countLeadZeroBytes, hp, List.takeWhile, hba]
  have henc : b58chk_encode p = (natToB58LE (bytesToNat (p ++ chk))).reverse := by
    rw [b58chk_encode, hlz, ← hchk]
    simp
  obtain ⟨c, cs, hccs, hcmem, hcne1⟩ := natToB58LE_rev_head (bytesToNat (p ++ chk)) hn0
  -- decode
  rw [henc, b58chk_decode, b58ToNatOpt_rev]
  have hlead1 : countLead1 ((natToB58LE (bytesToNat (p ++ chk))).reverse) = 0 := by
    rw [hccs]
    have hbc : (c == '1') = false := by simp [hcne1]
    simp [countLead1, List.takeWhile, hbc]
  rw [hlead1]
  simp only [List.replicate_zero, List.nil_append]
  have hbe : natToBytesBE (bytesToNat (p ++ chk)) = p ++ chk := by
    rw [hfull]
    exact natToBytesBE_bytesToNat a (as ++ chk) ha hfulllt
  rw [hbe]
  have hlen : (p ++ chk).length - 4 = p.length := by
    rw [List.length_append, hchklen]
    omega
  have htake : (p ++ chk).take ((p ++ chk).length - 4) = p := by
    rw [hlen, List.take_left]
  have hdrop : (p ++ chk).drop ((p ++ chk).length - 4) = chk := by
    rw [hlen, List.drop_left]
  rw [htake, hdrop, ← hchk]
  simp

theorem wif_roundtrip_gen
    (m : List (String × List Nat)) (privLen : Nat) (variant : String)
    (a : Nat) (pfxTail sec : List Nat) (compressed : Bool)
    (hlook : m.lookup variant = some (a :: pfxTail))
    (hstrip : ∀ rest, parse_wif_strip m ((a :: pfxTail) ++ rest) = some (variant, rest))
    (ha : a ≠ 0)
    (hpfx : ∀ b ∈ a :: pfxTail, b < 256)
    (hsec : sec.length = privLen)
    (hsecb : ∀ b ∈ sec, b < 256) :
    ∃ w, hex2wif m privLen sec variant compressed = some w ∧
         parse_wif m privLen w = some ⟨sec, variant, compressed⟩ := by
  set flag : List Nat := if compressed then [1] else [] with hflag
  have hflaglt : ∀ b ∈ flag, b < 256 := by
    intro b hb
    rw [hflag] at hb
    cases compressed <;> simp at hb
    omega
  refine ⟨b58chk_encode ((a :: pfxTail) ++ sec ++ flag), ?_, ?_⟩
  · simp only [hex2wif, hsec, if_pos, hlook]
  · have hshape : (a :: pfxTail) ++ sec ++ flag = a :: (pfxTail ++ (sec ++ flag)) := by simp
    have hlt : ∀ x ∈ a :: (pfxTail ++ (sec ++ flag)), x < 256 := by
      intro x hx
      rcases List.mem_cons.mp hx with h | h
      · exact hpfx x (h ▸ List.mem_cons_self a pfxTail)
      · rcases List.mem_append.mp h with h2 | h2
        · exact hpfx x (List.mem_cons_of_mem a h2)
        · rcases List.mem_append.mp h2 with h3 | h3
          · exact hsecb x h3
          · exact hflaglt x h3
    have hdec : b58chk_decode (b58chk_encode ((a :: pfxTail) ++ sec ++ flag))
        = some ((a :: pfxTail) ++ (sec ++ flag)) := by
      rw [hshape, b58chk_decode_encode a (pfxTail ++ (sec ++ flag)) ha hlt]
      simp
    rw [parse_wif, hdec, Option.some_bind, hstrip (sec ++ flag), Option.some_bind]
    cases compressed
    · have hflagv : flag = [] := hflag.trans rfl
      rw [hflagv]
      simp only [parse_wif_rest, List.append_nil]
      rw [if_neg (show ¬ sec.length = privLen + 1 by omega), if_pos hsec, ← hsec,
        List.take_length]
    · have hflagv : flag = [1] := hflag.trans rfl
      rw [hflagv]
      simp only [parse_wif_rest]
      have h1 : (sec ++ [1]).length = privLen + 1 := by simp [hsec]
      have h2 : (sec ++ [1]).getLast? = some 1 := by simp
      have h3 : (sec ++ [1]).take privLen = sec := by
        rw [← hsec]
        exact List.take_left sec [1]
      rw [h1, h2, h3]
      simp

theorem strip_btc (rest : List Nat) :
    parse_wif_strip btcWifVerNum (0x80 :: rest) = some ("std", rest) := by
  simp [parse_wif_strip, btcWifVerNum]

theorem strip_btc_testnet (rest : List Nat) :
    parse_wif_strip btcTestnetWifVerNum (0xef :: rest) = some ("std", rest) := by
  simp [parse_wif_strip, btcTestnetWifVerNum]

theorem strip_ltc (rest : List Nat) :
    parse_wif_strip ltcWifVerNum (0xb0 :: rest) = some ("std", rest) := by
  simp [parse_wif_strip, ltcWifVerNum]

theorem strip_zec_std (rest : List Nat) :
    parse_wif_strip zecWifVerNum (0x80 :: rest) = some ("std", rest) := by
  simp [parse_wif_strip, zecWifVerNum]

theorem strip_zec_z (rest : List Nat) :
    parse_wif_strip zecWifVerNum (0xab :: 0x36 :: rest) = some ("zcash_z", rest) := by
  simp [parse_wif_strip, zecWifVerNum]

/-- C1: for every 32-byte secret `s` with `0 < int(s) < curve_order`,
every declared key-variant tag and both values of the compressed flag,
`parse_wif(hex2wif(s, variant, compressed))` recovers exactly
`(s, variant, compressed)` under Bitcoin mainnet, Bitcoin testnet,
Litecoin, and Zcash (both its `std` and `zcash_z` variants). -/
theorem C1_wif_roundtrip (sec : List Nat) (hlen : sec.length = 32)
    (hbytes : ∀ b ∈ sec, b < 256)
    (hlo : 0 < bytesToNat sec) (hhi : bytesToNat sec < secp256k1_ge) (compressed : Bool) :
    (∃ w, hex2wif btcWifVerNum 32 sec "std" compressed = some w ∧
          parse_wif btcWifVerNum 32 w = some ⟨sec, "std", compressed⟩)
  ∧ (∃ w, hex2wif btcTestnetWifVerNum 32 sec "std" compressed = some w ∧
          parse_wif btcTestnetWifVerNum 32 w = some ⟨sec, "std", compressed⟩)
  ∧ (∃ w, hex2wif ltcWifVerNum 32 sec "std" compressed = some w ∧
          parse_wif ltcWifVerNum 32 w = some ⟨sec, "std", compressed⟩)
  ∧ (∃ w, hex2wif zecWifVerNum 32 sec "std" compressed = some w ∧
          parse_wif zecWifVerNum 32 w = some ⟨sec, "std", compressed⟩)
  ∧ (∃ w, hex2wif zecWifVerNum 32 sec "zcash_z" compressed = some w ∧
          parse_wif zecWifVerNum 32 w = some ⟨sec, "zcash_z", compressed⟩) := by
  refine ⟨?_, ?_, ?_, ?_, ?_⟩
  · exact wif_roundtrip_gen btcWifVerNum 32 "std" 0x80 [] sec compressed
      (by decide) strip_btc (by decide) (by decide) hlen hbytes
  · exact wif_roundtrip_gen btcTestnetWifVerNum 32 "std" 0xef [] sec compressed
      (by decide) strip_btc_testnet (by decide) (by decide) hlen hbytes
  · exact wif_roundtrip_gen ltcWifVerNum 32 "std" 0xb0 [] sec compressed
      (by decide) strip_ltc (by decide) (by decide) hlen hbytes
  · exact wif_roundtrip_gen zecWifVerNum 32 "std" 0x80 [] sec compressed
      (by decide) strip_zec_std (by decide) (by decide) hlen hbytes
  · exact wif_roundtrip_gen zecWifVerNum 32 "zcash_z" 0xab [0x36] sec compressed
      (by decide) strip_zec_z (by decide) (by decide) hlen hbytes

/-- Witness for C1 at the concrete in-range secret `0x00…01`
(compressed). -/
theorem C1_wif_roundtrip_witness :
    ∃ w, hex2wif btcWifVerNum 32 (List.replicate 31 0 ++ [1]) "std" true = some w ∧
         parse_wif btcWifVerNum 32 w = some ⟨List.replicate 31 0 ++ [1], "std", true⟩ :=
  (C1_wif_roundtrip (List.replicate 31 0 ++ [1]) (by decide) (by decide)
    (by decide) (by decide) true).1

/-- C2: `preprocess_key` returns an in-range key unchanged and dies on a
zero key or a key equal to the curve order; but on the out-of-range key
`curve_order + 1` it only returns the reduced key `0x00…01` when the
test-suite flag suppresses the warning — with the warning enabled (the
production default) the branch raises `NameError` on the undefined name
`hexpriv` instead of warning and returning. -/
theorem C2_preprocess_key_hexpriv_bug :
    preprocess_key false secGePlusOne = .err .nameErrHexpriv
  ∧ preprocess_key true secGePlusOne = .ok (List.replicate 31 0 ++ [1])
  ∧ preprocess_key true (List.replicate 31 0 ++ [1]) = .ok (List.replicate 31 0 ++ [1])
  ∧ preprocess_key false (List.replicate 31 0 ++ [1]) = .ok (List.replicate 31 0 ++ [1])
  ∧ preprocess_key true (List.replicate 32 0) = .err .zeroKey
  ∧ preprocess_key false (List.replicate 32 0) = .err .zeroKey
  ∧ preprocess_key true (natToBytesPadded secp256k1_ge 32) = .err .eqOrder
  ∧ preprocess_key false (natToBytesPadded secp256k1_ge 32) = .err .eqOrder := by
  decide

set_option maxRecDepth 100000 in
set_option maxHeartbeats 1000000 in
/-- C4: under Bitcoin mainnet, `pubhash2addr` on the all-zero 20-byte
pubkey hash (hex string of 40 zeros) with `p2sh = false` yields exactly
the zero address `1111111111111111111114oLvT2`, and `parse_addr` maps
that string back to the 20 zero bytes with format tag `p2pkh`
(regardless of the bech32 decoder, which is never consulted since the
string does not start with the `bc` HRP). -/
theorem C4_zero_address :
    pubhash2addr btcAddrVerBytes (List.replicate 40 '0') false
      = some ("1111111111111111111114oLvT2".toList)
  ∧ ∀ bechDecode,
      parse_addr ['L','C','S','B'] ['b','c'] 0 btcAddrVerBytes (fun _ => 20)
        bechDecode b58chk_decode ("1111111111111111111114oLvT2".toList)
      = some ⟨List.replicate 20 0, "p2pkh"⟩ := by
  constructor
  · decide
  · intro bechDecode
    rw [parse_addr, if_neg (by decide)]
    decide

theorem b58chk_encode_head (a : Nat) (as : List Nat) (ha : a ≠ 0) :
    ∃ c cs, b58chk_encode (a :: as) = c :: cs ∧ c ∈ b58Alpha ∧ c ≠ '1' := by
  have hfull : (a :: as) ++ (hash256bytes (a :: as)).take 4
      = a :: (as ++ (hash256bytes (a :: as)).take 4) := by simp
  have hn0 : bytesToNat ((a :: as) ++ (hash256bytes (a :: as)).take 4) ≠ 0 := by
    rw [hfull]
    have hpos := bytesToNat_cons_pos a (as ++ (hash256bytes (a :: as)).take 4) ha
    omega
  have hlz : countLeadZeroBytes (a :: as) = 0 := by
    have hba : (a == 0) = false := by simp [ha]
    simp [countLeadZeroBytes, List.takeWhile, hba]
  obtain ⟨c, cs, hccs, hcmem, hcne1⟩ := natToB58LE_rev_head _ hn0
  refine ⟨c, cs, ?_, hcmem, hcne1⟩
  rw [b58chk_encode, hlz]
  simpa using hccs

theorem b58Alpha_no_ell : 'l' ∉ b58Alpha := by decide

/-- Helper for C5: parsing the base-58-check encoding of a one-byte
version plus 20-byte body under the Litecoin mainnet record never takes
the bech32 branch (no base-58 string starts with the letter `l`), and
dispatches through `ltcAddrVerBytes` in insertion order. -/
theorem ltc_parse_encoded (v : Nat) (body : List Nat) (hv : v ≠ 0) (hv256 : v < 256)
    (hbytes : ∀ b ∈ body, b < 256)
    (bechDecode : List Char → List Char → Option (Nat × List Nat)) :
    parse_addr ['L','C','S','B'] ['l','t','c'] 0 ltcAddrVerBytes (fun _ => 20)
      bechDecode b58chk_decode (b58chk_encode (v :: body))
    = parse_addr_bytes ltcAddrVerBytes (fun _ => 20) (v :: body) := by
  have hlt : ∀ x ∈ v :: body, x < 256 := by
    intro x hx
    rcases List.mem_cons.mp hx with h | h
    · omega
    · exact hbytes x h
  obtain ⟨c, cs, hccs, hcmem, hcne1⟩ := b58chk_encode_head v body hv
  have hcnel : c ≠ 'l' := fun h => b58Alpha_no_ell (h ▸ hcmem)
  have hcond : ¬ ('B' ∈ ['L','C','S','B']
      ∧ (b58chk_encode (v :: body)).take (['l','t','c'] : List Char).length = ['l','t','c']) := by
    rintro ⟨-, htk⟩
    rw [hccs] at htk
    simp only [List.length_cons, List.length_nil, List.take_succ_cons] at htk
    exact hcnel (List.cons_eq_cons.mp htk).1
  rw [parse_addr, if_neg hcond, b58chk_decode_encode v body hv hlt, Option.some_bind]

/-- C5: under the Litecoin mainnet record the `addr_ver_bytes` table is
scanned in insertion order, so a Base58Check address with the legacy
version byte `0x05` (listed after the new `0x32`) and a 20-byte body
parses successfully as `p2sh`, and a `0x32` address parses as `p2sh`
too. -/
theorem C5_ltc_legacy_p2sh (body : List Nat) (hlen : body.length = 20)
    (hbytes : ∀ b ∈ body, b < 256)
    (bechDecode : List Char → List Char → Option (Nat × List Nat)) :
    parse_addr ['L','C','S','B'] ['l','t','c'] 0 ltcAddrVerBytes (fun _ => 20)
      bechDecode b58chk_decode (b58chk_encode (0x05 :: body))
    = some ⟨body, "p2sh"⟩
  ∧ parse_addr ['L','C','S','B'] ['l','t','c'] 0 ltcAddrVerBytes (fun _ => 20)
      bechDecode b58chk_decode (b58chk_encode (0x32 :: body))
    = some ⟨body, "p2sh"⟩ := by
  constructor
  · rw [ltc_parse_encoded 0x05 body (by norm_num) (by norm_num) hbytes bechDecode]
    simp [parse_addr_bytes, ltcAddrVerBytes, hlen]
  · rw [ltc_parse_encoded 0x32 body (by norm_num) (by norm_num) hbytes bechDecode]
    simp [parse_addr_bytes, ltcAddrVerBytes, hlen]

/-- Witness for C5 at the all-zero 20-byte body. -/
theorem C5_ltc_legacy_p2sh_witness :
    parse_addr ['L','C','S','B'] ['l','t','c'] 0 ltcAddrVerBytes (fun _ => 20)
      (fun _ _ => none) b58chk_decode (b58chk_encode (0x05 :: List.replicate 20 0))
    = some ⟨List.replicate 20 0, "p2sh"⟩
  ∧ parse_addr ['L','C','S','B'] ['l','t','c'] 0 ltcAddrVerBytes (fun _ => 20)
      (fun _ _ => none) b58chk_decode (b58chk_encode (0x32 :: List.replicate 20 0))
    = some ⟨List.replicate 20 0, "p2sh"⟩ :=
  C5_ltc_legacy_p2sh (List.replicate 20 0) (by decide) (by decide) (fun _ _ => none)

/-- C10: on a protocol record whose `mmtypes` include `'B'`, any address
string whose leading characters equal the bech32 HRP is handled
entirely by the bech32 branch of `parse_addr` — the result coincides
with `bech32Branch` (defined without any reference to Base58Check
decoding or the version-byte table), for EVERY base-58 decoder, so the
function never falls back to Base58Check for such a string. -/
theorem C10_bech32_exclusive (mmtypes hrp : List Char) (witnessVernum : Nat)
    (verBytes : List (List Nat × String)) (addrLenFor : String → Nat)
    (bechDecode : List Char → List Char → Option (Nat × List Nat))
    (b58dec : List Char → Option (List Nat)) (addr : List Char)
    (hB : 'B' ∈ mmtypes) (hpre : addr.take hrp.length = hrp) :
    parse_addr mmtypes hrp witnessVernum verBytes addrLenFor bechDecode b58dec addr
    = bech32Branch hrp witnessVernum bechDecode addr := by
  rw [parse_addr, if_pos ⟨hB, hpre⟩, bech32Branch]

/-- Witness for C10: a concrete Bitcoin-mainnet instantiation on a
string starting with `bc`, with an arbitrary concrete bech32 decoder
and the real Base58Check decoder. -/
theorem C10_bech32_exclusive_witness :
    parse_addr ['L','C','S','B'] ['b','c'] 0 btcAddrVerBytes (fun _ => 20)
      (fun _ _ => some (0, List.replicate 20 7)) b58chk_decode ("bc1qxyz".toList)
    = bech32Branch ['b','c'] 0 (fun _ _ => some (0, List.replicate 20 7)) ("bc1qxyz".toList) :=
  C10_bech32_exclusive ['L','C','S','B'] ['b','c'] 0 btcAddrVerBytes (fun _ => 20)
    (fun _ _ => some (0, List.replicate 20 7)) b58chk_decode ("bc1qxyz".toList)
    (by decide) (by decide)

theorem parse_addr_bytes_length :
    ∀ (vbs : List (List Nat × String)) (lenFor : String → Nat) (ab : List Nat)
      (res : ParsedAddrT),
    parse_addr_bytes vbs lenFor ab = some res → res.bytes.length = lenFor res.fmt := by
  intro vbs
  induction vbs with
  | nil =>
    intro lenFor ab res h
    simp [parse_addr_bytes] at h
  | cons e rest ih =>
    intro lenFor ab res h
    obtain ⟨vb, fmt⟩ := e
    rw [parse_addr_bytes] at h
    split_ifs at h with h1 h2
    · rw [Option.some_inj] at h
      subst h
      exact h2
    · exact ih lenFor ab res h
    · exact ih lenFor ab res h

/-- C6: every address accepted by the Monero `parse_addr` has a body of
exactly 68 bytes — the version byte is stripped but the trailing 4-byte
checksum is NOT (Monero declares `addr_len = 68`), so the body is the
64 bytes of key data plus the checksum, not 64 bytes. -/
theorem C6_xmr_parse_addr_body68 (addr : List Char) (res : ParsedAddrT)
    (h : xmr_parse_addr addr = some res) : res.bytes.length = 68 := by
  rw [xmr_parse_addr] at h
  rcases hdec : monero_b58dec addr with _ | ret
  · rw [hdec, Option.none_bind] at h
    exact absurd h (by simp)
  · rw [hdec] at h
    simp only [Option.some_bind] at h
    split_ifs at h
    exact parse_addr_bytes_length xmrAddrVerBytes (fun _ => 68) ret res h

set_option maxRecDepth 100000 in
set_option maxHeartbeats 1000000 in
/-- Witness for C6 at the concrete valid address `xmrZeroAddr`, whose
parse succeeds with format `monero`. -/
theorem C6_xmr_parse_addr_body68_witness :
    (⟨List.replicate 64 0 ++ [0x33, 0xbb, 0x94, 0x41], "monero"⟩ : ParsedAddrT).bytes.length
      = 68 :=
  C6_xmr_parse_addr_body68 xmrZeroAddr
    ⟨List.replicate 64 0 ++ [0x33, 0xbb, 0x94, 0x41], "monero"⟩ (by decide)

set_option maxRecDepth 100000 in
set_option maxHeartbeats 1000000 in
/-- Counterexample to C6 as stated: the concrete valid Monero address
parses successfully, but its body has 68 bytes, not the claimed
`address_body_length` of 64. -/
theorem C6_xmr_body_not_64 :
    xmr_parse_addr xmrZeroAddr
      = some ⟨List.replicate 64 0 ++ [0x33, 0xbb, 0x94, 0x41], "monero"⟩
  ∧ (List.replicate 64 0 ++ [0x33, 0xbb, 0x94, 0x41]).length ≠ 64 := by
  decide

/-- Counterexample to C3 as stated: a negative amount and NaN are both
accepted by `is_btc_amt` (returned as validated amounts), and
`check_btc_amt` passes them through instead of terminating. -/
theorem C3_negative_and_nan_accepted :
    is_btc_amt ("-1".toList) = .amount (.num true [1] 0)
  ∧ check_btc_amt ("-1".toList) = .amount (.num true [1] 0)
  ∧ is_btc_amt ("nan".toList) = .amount .nan
  ∧ check_btc_amt ("nan".toList) = .amount .nan := by
  decide

/-- C3 (amended): `is_btc_amt` returns `False` exactly for inputs that
do not parse as a Decimal, finite amounts with more than 8 fractional
digits (tuple exponent `< -8`), and zero; `check_btc_amt` exits with
code 3 on exactly those.  Finite nonzero amounts — whatever their sign —
and quiet NaN are passed through as validated amounts. -/
theorem C3_is_btc_amt_amended (s : List Char) :
    (parseDecimalStr s = none →
      is_btc_amt s = .invalid ∧ check_btc_amt s = .exit3)
  ∧ (∀ sg ds e, parseDecimalStr s = some (.num sg ds e) → e < -8 →
      is_btc_amt s = .invalid ∧ check_btc_amt s = .exit3)
  ∧ (∀ sg ds e, parseDecimalStr s = some (.num sg ds e) → ¬ e < -8 → coeffVal ds = 0 →
      is_btc_amt s = .invalid ∧ check_btc_amt s = .exit3)
  ∧ (∀ sg ds e, parseDecimalStr s = some (.num sg ds e) → ¬ e < -8 → coeffVal ds ≠ 0 →
      is_btc_amt s = (match trim_exponent (.num sg ds e) with
                      | some t => .amount t
                      | none => .raised))
  ∧ (parseDecimalStr s = some .nan → is_btc_amt s = .amount .nan) := by
  refine ⟨?_, ?_, ?_, ?_, ?_⟩
  · intro h
    have h1 : is_btc_amt s = .invalid := by rw [is_btc_amt, h]
    exact ⟨h1, by rw [check_btc_amt, h1]⟩
  · intro sg ds e h he
    have h1 : is_btc_amt s = .invalid := by
      rw [is_btc_amt, h]
      simp [decExpLtMinus8, he]
    exact ⟨h1, by rw [check_btc_amt, h1]⟩
  · intro sg ds e h he h0
    have h1 : is_btc_amt s = .invalid := by
      rw [is_btc_amt, h]
      simp [decExpLtMinus8, he, decEqZeroCheck, h0]
    exact ⟨h1, by rw [check_btc_amt, h1]⟩
  · intro sg ds e h he h0
    rcases htr : trim_exponent (.num sg ds e) with _ | t
    · rw [is_btc_amt, h]
      simp [decExpLtMinus8, he, decEqZeroCheck, h0, htr]
    · rw [is_btc_amt, h]
      simp [decExpLtMinus8, he, decEqZeroCheck, h0, htr]
  · intro h
    rw [is_btc_amt, h]
    simp [decExpLtMinus8, decEqZeroCheck, trim_exponent]

/-- Witness for the amended C3 at the nine-fractional-digit input
`0.123456789`, rejected with exit code 3. -/
theorem C3_is_btc_amt_amended_witness :
    is_btc_amt ("0.123456789".toList) = .invalid
  ∧ check_btc_amt ("0.123456789".toList) = .exit3 :=
  (C3_is_btc_amt_amended ("0.123456789".toList)).2.1 false
    [1, 2, 3, 4, 5, 6, 7, 8, 9] (-9) (by decide) (by decide)

theorem preverifyLoop_spec (derive : String → String) :
    ∀ (ks addrs wrong : List String),
      ((preverifyLoop derive ks addrs wrong).1 ⊆ addrs)
    ∧ (∀ k ∈ (preverifyLoop derive ks addrs wrong).2,
        k ∈ wrong ∨ derive k ∉ (preverifyLoop derive ks addrs wrong).1) := by
  intro ks
  induction ks with
  | nil =>
    intro addrs wrong
    constructor
    · simp [preverifyLoop]
    · intro k hk
      left
      simpa [preverifyLoop] using hk
  | cons k0 ks ih =>
    intro addrs wrong
    by_cases hmem : derive k0 ∈ addrs
    · by_cases hemp : addrs.erase (derive k0) = []
      · simp only [preverifyLoop, if_pos hmem, if_pos hemp]
        constructor
        · exact List.erase_subset _ _
        · intro k hk
          left
          exact hk
      · simp only [preverifyLoop, if_pos hmem, if_neg hemp]
        obtain ⟨hsub, hwr⟩ := ih (addrs.erase (derive k0)) wrong
        exact ⟨hsub.trans (List.erase_subset _ _), hwr⟩
    · simp only [preverifyLoop, if_neg hmem]
      obtain ⟨hsub, hwr⟩ := ih addrs (wrong ++ [k0])
      refine ⟨hsub, ?_⟩
      intro k hk
      rcases hwr k hk with hw | hnd
      · rcases List.mem_append.mp hw with h | h
        · exact Or.inl h
        · right
          have hkk : k = k0 := by simpa using h
          subst hkk
          intro hcontra
          exact hmem (hsub hcontra)
      · exact Or.inr hnd

/-- C7 (amended): when there are enough keys and all keys are valid,
`preverify_keys` exits with code 2 — not 3 — exactly when some external
address remains unmatched after the loop, and every key reported as
extra has a derived address that is not among the remaining unmatched
addresses (keys left unexamined after the early break are not
reported). -/
theorem C7_preverify_keys_amended (validKey : String → Bool) (derive : String → String)
    (addrsOrig keysOrig : List String)
    (hsize : ¬ (dedup keysOrig).length < (dedup addrsOrig).length)
    (hvalid : ∀ k ∈ dedup keysOrig, validKey k = true) :
    ((preverify_keys validKey derive addrsOrig keysOrig).exitCode
      = if (preverify_keys validKey derive addrsOrig keysOrig).remaining = [] then none
        else some 2)
  ∧ ∀ k ∈ (preverify_keys validKey derive addrsOrig keysOrig).wrongKeys,
      derive k ∉ (preverify_keys validKey derive addrsOrig keysOrig).remaining := by
  have hfil : (dedup keysOrig).filter (fun k => ¬ validKey k) = [] := by
    rw [List.filter_eq_nil_iff]
    intro a ha
    simp [hvalid a ha]
  rw [preverify_keys]
  simp only [if_neg hsize, hfil, ne_eq, not_true_eq_false, if_false]
  obtain ⟨hsub, hwr⟩ := preverifyLoop_spec derive (dedup keysOrig) (dedup addrsOrig) []
  constructor
  · trivial
  · intro k hk
    rcases hwr k hk with hw | hnd
    · exact absurd hw (List.not_mem_nil k)
    · exact hnd

/-- Witness for the amended C7: one valid key whose derived address
misses the single external address; exit code 2, no extra key with a
still-matchable address. -/
theorem C7_preverify_keys_amended_witness :
    ((preverify_keys (fun _ => true) (fun _ => "B") ["A"] ["k"]).exitCode
      = if (preverify_keys (fun _ => true) (fun _ => "B") ["A"] ["k"]).remaining = [] then none
        else some 2)
  ∧ ∀ k ∈ (preverify_keys (fun _ => true) (fun _ => "B") ["A"] ["k"]).wrongKeys,
      (fun _ => "B") k ∉ (preverify_keys (fun _ => true) (fun _ => "B") ["A"] ["k"]).remaining :=
  C7_preverify_keys_amended (fun _ => true) (fun _ => "B") ["A"] ["k"] (by decide) (by decide)

/-- Counterexample to C7 as stated: with one valid key deriving to an
address outside the external set, an address remains unmatched and the
exit code is 2, not the claimed 3; and with two keys where the first
empties the address set, the second key has an unmatched derived
address yet is never reported as extra (the loop breaks early). -/
theorem C7_missing_key_exits_2_not_3 :
    (preverify_keys (fun _ => true) (fun _ => "B") ["A"] ["k"]).remaining = ["A"]
  ∧ (preverify_keys (fun _ => true) (fun _ => "B") ["A"] ["k"]).exitCode = some 2
  ∧ (preverify_keys (fun _ => true) (fun _ => "B") ["A"] ["k"]).exitCode ≠ some 3
  ∧ (preverify_keys (fun _ => true)
      (fun k => if k = "k1" then "A" else "B") ["A"] ["k1", "k2"]).wrongKeys = [] := by
  decide

theorem unlockLoop_no_lock : ∀ l : List Bool, WalletEv.lockCall ∉ (unlockLoop l).1 := by
  intro l
  induction l with
  | nil => simp [unlockLoop]
  | cons b rest ih =>
    cases b
    · simp [unlockLoop, ih]
    · simp [unlockLoop]

theorem unlockLoop_fail_no_passOk : ∀ l : List Bool,
    (unlockLoop l).2 = false → WalletEv.passOk ∉ (unlockLoop l).1 := by
  intro l
  induction l with
  | nil => intro _; simp [unlockLoop]
  | cons b rest ih =>
    cases b
    · intro h
      simp only [unlockLoop] at h ⊢
      simp only [List.mem_cons]
      rintro (hc | hc)
      · exact absurd hc (by decide)
      · exact ih h hc
    · intro h
      simp [unlockLoop] at h

/-- C8 (amended): after a successful `walletpassphrase`, `walletlock` is
invoked exactly when the second `signrawtransaction` completes
normally; when it fails (invalid key, which exits with code 3, or any
other error, which propagates), the function ends without ever calling
`walletlock` and the wallet is left unlocked. -/
theorem C8_wallet_lock_amended (b : SignBehavior)
    (hunlock : WalletEv.passOk ∈ (sign_tx_with_bitcoind_wallet b).2) :
    (b.secondSign = .ok →
      WalletEv.lockCall ∈ (sign_tx_with_bitcoind_wallet b).2)
  ∧ (b.secondSign ≠ .ok →
      WalletEv.lockCall ∉ (sign_tx_with_bitcoind_wallet b).2) := by
  obtain ⟨f, pa, s⟩ := b
  have hnl := unlockLoop_no_lock pa
  have hfl := unlockLoop_fail_no_passOk pa
  cases f with
  | ok =>
    exfalso
    simp [sign_tx_with_bitcoind_wallet] at hunlock
  | invalidKey =>
    by_cases hu2 : (unlockLoop pa).2 = false
    · exfalso
      simp [sign_tx_with_bitcoind_wallet, hu2] at hunlock
      exact hfl hu2 hunlock
    · cases s with
      | ok =>
        constructor
        · intro _
          simp [sign_tx_with_bitcoind_wallet, hu2]
        · intro hs
          exact absurd rfl hs
      | invalidKey =>
        constructor
        · intro hs
          exact SignOutcome.noConfusion hs
        · intro _
          simp [sign_tx_with_bitcoind_wallet, hu2, hnl]
      | otherErr =>
        constructor
        · intro hs
          exact SignOutcome.noConfusion hs
        · intro _
          simp [sign_tx_with_bitcoind_wallet, hu2, hnl]
  | otherErr =>
    by_cases hu2 : (unlockLoop pa).2 = false
    · exfalso
      simp [sign_tx_with_bitcoind_wallet, hu2] at hunlock
      exact hfl hu2 hunlock
    · cases s with
      | ok =>
        constructor
        · intro _
          simp [sign_tx_with_bitcoind_wallet, hu2]
        · intro hs
          exact absurd rfl hs
      | invalidKey =>
        constructor
        · intro hs
          exact SignOutcome.noConfusion hs
        · intro _
          simp [sign_tx_with_bitcoind_wallet, hu2, hnl]
      | otherErr =>
        constructor
        · intro hs
          exact SignOutcome.noConfusion hs
        · intro _
          simp [sign_tx_with_bitcoind_wallet, hu2, hnl]

/-- Witness for the amended C8: first signing fails, one successful
passphrase entry, second signing succeeds — the wallet is re-locked. -/
theorem C8_wallet_lock_amended_witness :
    WalletEv.lockCall ∈ (sign_tx_with_bitcoind_wallet ⟨.otherErr, [true], .ok⟩).2 :=
  (C8_wallet_lock_amended ⟨.otherErr, [true], .ok⟩ (by decide)).1 rfl

/-- Counterexample to C8 as stated: first signing fails, the wallet is
unlocked on the first passphrase attempt, and the second signing hits
`InvalidAddressOrKey` — the run ends with exit code 3 and `walletlock`
is never invoked. -/
theorem C8_unlocked_never_relocked :
    WalletEv.passOk ∈ (sign_tx_with_bitcoind_wallet ⟨.otherErr, [true], .invalidKey⟩).2
  ∧ WalletEv.lockCall ∉ (sign_tx_with_bitcoind_wallet ⟨.otherErr, [true], .invalidKey⟩).2
  ∧ (sign_tx_with_bitcoind_wallet ⟨.otherErr, [true], .invalidKey⟩).1 = .exitCode 3 := by
  decide

/-- C9 (amended): when a catalog entry's symbol is already present in
the registry, the altcoin expansion path skips the entry silently —
`make_proto` contributes nothing (no registration, and no
`already_registered` or any other error; the function has no error
outcome at all). -/
theorem C9_make_proto_amended (definedProtos registeredCoins : List String)
    (e : CoinInfoEntry) (testnet : Bool)
    (h : strToLower e.symbol ∈ registeredCoins) :
    make_proto definedProtos registeredCoins e testnet = none := by
  simp only [make_proto]
  by_cases hd : protoClassName e testnet ∈ definedProtos
  · rw [if_pos hd]
  · rw [if_neg hd, if_pos h]

/-- Witness for the amended C9 at the LTC catalog entry against the core
registry. -/
theorem C9_make_proto_amended_witness :
    make_proto [] coreCoins ltcCatalogEntry false = none :=
  C9_make_proto_amended [] coreCoins ltcCatalogEntry false (by decide)

/-- Counterexample to C9 as stated: re-registering LTC through the
catalog path is silently skipped (the expansion yields no record and no
error — the path has no error outcome), while the identical entry
registers fine against an empty registry; nothing fails with
`already_registered`. -/
theorem C9_reregistration_silently_skipped :
    make_init_genonly_altcoins [] coreCoins [ltcCatalogEntry] = []
  ∧ make_proto [] coreCoins ltcCatalogEntry false = none
  ∧ make_init_genonly_altcoins [] [] [ltcCatalogEntry]
      = [{ protoName := "LitecoinProtocol", baseCoin := "LTC",
           addrVerBytes := [([0x30], "p2pkh"), ([0x32], "p2sh")],
           wifVerNum := [("std", [0xb0])], mmtypes := ['L', 'C', 'S'] }] := by
  decide
